import Mathlib

/-!
# Verification of the extract-content pipeline

Shallow embedding of the document content-extraction pipeline
(`supabase/functions/extract-content`, robust variant: the one with the
newline-preserving `clean` sanitizer, page-count limits and per-outcome
HTTP statuses).  Text is modelled as `List Char`; external collaborators
(auth backend, blob store, the pdf.js parser and the JSON round-trip) are
modelled as components of an environment record.
-/

namespace FileSage

/-! ## Character classes -/

/-- The control-character class stripped by `clean`:
the regex `[\x00-\x08\x0B\x0C\x0E-\x1F\x7F]` (C0 controls except
tab `\x09`, LF `\x0A`, CR `\x0D`, plus DEL `\x7F`). -/
def isCtrl (c : Char) : Bool :=
  (c.toNat ≤ 0x08) || (c.toNat == 0x0B) || (c.toNat == 0x0C) ||
  (0x0E ≤ c.toNat && c.toNat ≤ 0x1F) || (c.toNat == 0x7F)

/-- Horizontal whitespace, the regex class `[ \t]`. -/
def isHT (c : Char) : Bool := c == ' ' || c == '\t'

/-- JavaScript string whitespace (the class trimmed by
`String.prototype.trim` / `trimEnd`). -/
def isJSWS (c : Char) : Bool :=
  c == ' ' || c == '\t' || c == '\n' || c == '\r' ||
  c == '\x0B' || c == '\x0C' ||
  (c.toNat == 0xA0) || (c.toNat == 0x1680) ||
  (0x2000 ≤ c.toNat && c.toNat ≤ 0x200A) ||
  (c.toNat == 0x2028) || (c.toNat == 0x2029) || (c.toNat == 0x202F) ||
  (c.toNat == 0x205F) || (c.toNat == 0x3000) || (c.toNat == 0xFEFF)

/-! ## The `clean` sanitizer, stage by stage

Source (robust variant of `extract-content`):
```
function clean(s: string) {
  return s
    .replace(/\0/g, "")
    .replace(/[\x00-\x08\x0B\x0C\x0E-\x1F\x7F]/g, "")
    .replace(/[ \t]+\n/g, "\n")
    .replace(/\n{3,}/g, "\n\n")
    .replace(/[ \t]{2,}/g, " ")
    .trim();
}
```
-/

/-- `.replace(/\0/g, "")` — remove NUL characters. -/
def stripNul (l : List Char) : List Char :=
  l.filter (fun c => c != '\x00')

/-- `.replace(/[\x00-\x08\x0B\x0C\x0E-\x1F\x7F]/g, "")` — remove control
characters. -/
def stripCtrl (l : List Char) : List Char :=
  l.filter (fun c => !isCtrl c)

/-- Does the list start with a newline? -/
def headIsNL (l : List Char) : Bool :=
  match l.head? with
  | some c => c == '\n'
  | none => false

/-- `.replace(/[ \t]+\n/g, "\n")`: a space/tab is removed exactly when the
maximal run of spaces/tabs it belongs to is immediately followed by `\n`. -/
def dropHTBeforeNL : List Char → List Char
  | [] => []
  | c :: rest =>
    if isHT c && headIsNL (rest.dropWhile isHT) then dropHTBeforeNL rest
    else c :: dropHTBeforeNL rest

/-- Worker for `.replace(/\n{3,}/g, "\n\n")`.  `n` counts the newlines of
the current run seen so far; the third and later newlines of a run are
dropped (a run of `k ≥ 3` newlines is left as exactly two). -/
def collapseNLGo : Nat → List Char → List Char
  | _, [] => []
  | n, c :: rest =>
    if c == '\n' then
      if 2 ≤ n then collapseNLGo (n + 1) rest
      else c :: collapseNLGo (n + 1) rest
    else c :: collapseNLGo 0 rest

/-- `.replace(/\n{3,}/g, "\n\n")`. -/
def collapseNL (l : List Char) : List Char := collapseNLGo 0 l

/-- Does the list start with a space/tab? -/
def headIsHT (l : List Char) : Bool :=
  match l.head? with
  | some c => isHT c
  | none => false

/-- Worker for `.replace(/[ \t]{2,}/g, " ")`.  `inRun` records that the
current maximal space/tab run has already been replaced by a single
space; a run of length 1 is kept as it is. -/
def collapseHTGo : Bool → List Char → List Char
  | _, [] => []
  | inRun, c :: rest =>
    if isHT c then
      if inRun then collapseHTGo true rest
      else if headIsHT rest then ' ' :: collapseHTGo true rest
      else c :: collapseHTGo false rest
    else c :: collapseHTGo false rest

/-- `.replace(/[ \t]{2,}/g, " ")`. -/
def collapseHT (l : List Char) : List Char := collapseHTGo false l

/-- Remove trailing JavaScript whitespace (`String.prototype.trimEnd`). -/
def trimRight : List Char → List Char
  | [] => []
  | c :: rest =>
    match trimRight rest with
    | [] => if isJSWS c then [] else [c]
    | d :: t => c :: d :: t

/-- `String.prototype.trim`: drop leading and trailing whitespace. -/
def jsTrim (l : List Char) : List Char :=
  trimRight (l.dropWhile isJSWS)

/-- The `clean` sanitizer of the robust extract-content variant. -/
def clean (l : List Char) : List Char :=
  jsTrim (collapseHT (collapseNL (dropHTBeforeNL (stripCtrl (stripNul l)))))

example : clean "hello\x00world\n\n\n\nbye".data = "helloworld\n\nbye".data := by decide

example : clean "a\tb".data = "a\tb".data := by decide

example : clean "  a \t b\r\nc  ".data = "a b\r\nc".data := by decide

/-! ## Normal form of `clean` output

A sanitized string has: no control characters, no space/tab directly
before a newline, no two adjacent spaces/tabs, no three adjacent
newlines, and no leading/trailing whitespace.  `clean` produces exactly
such strings, and is the identity on them — whence idempotence. -/

/-- No two adjacent characters of the list satisfy `bad`. -/
def noAdj (bad : Char → Char → Bool) : List Char → Bool
  | a :: b :: rest => !bad a b && noAdj bad (b :: rest)
  | _ => true

/-- No three adjacent newlines. -/
def noNL3 : List Char → Bool
  | a :: b :: c :: rest =>
    !(a == '\n' && b == '\n' && c == '\n') && noNL3 (b :: c :: rest)
  | _ => true

/-- Bad pair for `/[ \t]+\n/`: a space/tab followed by a newline. -/
def badHTNL (a b : Char) : Bool := isHT a && b == '\n'

/-- Bad pair for `/[ \t]{2,}/`: two adjacent spaces/tabs. -/
def badHT2 (a b : Char) : Bool := isHT a && isHT b

/-- Starts with two newlines. -/
def stNN (l : List Char) : Bool :=
  match l with
  | a :: b :: _ => a == '\n' && b == '\n'
  | _ => false

/-- First character, if any, is not JS whitespace. -/
def headNotWS (l : List Char) : Bool :=
  match l.head? with
  | some c => !isJSWS c
  | none => true

/-- Last character, if any, is not JS whitespace. -/
def lastNotWS (l : List Char) : Bool :=
  match l.getLast? with
  | some c => !isJSWS c
  | none => true

/-- The normal form: output shape guaranteed by `clean`. -/
def cleaned (l : List Char) : Bool :=
  l.all (fun c => !isCtrl c) && noAdj badHTNL l && noAdj badHT2 l &&
  noNL3 l && headNotWS l && lastNotWS l

/-! ### Generic facts about `noAdj` and `noNL3` -/

theorem noAdj_nil (bad : Char → Char → Bool) : noAdj bad [] = true := rfl

theorem noAdj_single (bad : Char → Char → Bool) (a : Char) :
    noAdj bad [a] = true := rfl

theorem noAdj_cons_cons (bad : Char → Char → Bool) (a b : Char) (l : List Char) :
    noAdj bad (a :: b :: l) = (!bad a b && noAdj bad (b :: l)) := rfl

theorem noAdj_tail {bad : Char → Char → Bool} {a : Char} {l : List Char}
    (h : noAdj bad (a :: l) = true) : noAdj bad l = true := by
  cases l with
  | nil => rfl
  | cons b t =>
    rw [noAdj_cons_cons, Bool.and_eq_true] at h
    exact h.2

theorem noAdj_head {bad : Char → Char → Bool} {a : Char} {l : List Char}
    (h : noAdj bad (a :: l) = true) :
    ∀ b, l.head? = some b → bad a b = false := by
  intro b hb
  cases l with
  | nil => simp at hb
  | cons c t =>
    simp only [List.head?] at hb
    cases hb
    rw [noAdj_cons_cons, Bool.and_eq_true, Bool.not_eq_true'] at h
    exact h.1

theorem noAdj_cons_of {bad : Char → Char → Bool} {a : Char} {l : List Char}
    (h1 : ∀ b, l.head? = some b → bad a b = false)
    (h2 : noAdj bad l = true) : noAdj bad (a :: l) = true := by
  cases l with
  | nil => rfl
  | cons c t =>
    rw [noAdj_cons_cons, Bool.and_eq_true, Bool.not_eq_true']
    exact ⟨h1 c rfl, h2⟩

theorem noAdj_append_left {bad : Char → Char → Bool} {l t : List Char}
    (h : noAdj bad (l ++ t) = true) : noAdj bad l = true := by
  induction l with
  | nil => rfl
  | cons a l ih =>
    cases l with
    | nil => rfl
    | cons b r =>
      rw [List.cons_append, List.cons_append, noAdj_cons_cons,
        Bool.and_eq_true] at h
      rw [noAdj_cons_cons, Bool.and_eq_true]
      exact ⟨h.1, ih (by rw [List.cons_append]; exact h.2)⟩

theorem noAdj_dropWhile {bad : Char → Char → Bool} {p : Char → Bool}
    {l : List Char} (h : noAdj bad l = true) :
    noAdj bad (l.dropWhile p) = true := by
  induction l with
  | nil => exact h
  | cons a l ih =>
    rw [List.dropWhile_cons]
    split
    · exact ih (noAdj_tail h)
    · exact h

theorem noNL3_nil : noNL3 [] = true := rfl

theorem noNL3_single (a : Char) : noNL3 [a] = true := rfl

theorem noNL3_pair (a b : Char) : noNL3 [a, b] = true := rfl

theorem noNL3_cons_cons_cons (a b c : Char) (l : List Char) :
    noNL3 (a :: b :: c :: l) =
      (!(a == '\n' && b == '\n' && c == '\n') && noNL3 (b :: c :: l)) := rfl

theorem noNL3_tail {a : Char} {l : List Char}
    (h : noNL3 (a :: l) = true) : noNL3 l = true := by
  cases l with
  | nil => rfl
  | cons b t =>
    cases t with
    | nil => rfl
    | cons c r =>
      rw [noNL3_cons_cons_cons, Bool.and_eq_true] at h
      exact h.2

theorem noNL3_cons_of {a : Char} {l : List Char}
    (h1 : a = '\n' → stNN l = false)
    (h2 : noNL3 l = true) : noNL3 (a :: l) = true := by
  cases l with
  | nil => rfl
  | cons b t =>
    cases t with
    | nil => rfl
    | cons c r =>
      rw [noNL3_cons_cons_cons, Bool.and_eq_true]
      refine ⟨?_, h2⟩
      by_cases ha : a = '\n'
      · have := h1 ha
        simp only [stNN] at this
        simp [ha, this]
      · simp [ha]

theorem noNL3_append_left {l t : List Char}
    (h : noNL3 (l ++ t) = true) : noNL3 l = true := by
  induction l with
  | nil => rfl
  | cons a l ih =>
    cases l with
    | nil => rfl
    | cons b r =>
      cases r with
      | nil => rfl
      | cons c s =>
        simp only [List.cons_append] at h
        rw [noNL3_cons_cons_cons, Bool.and_eq_true] at h
        rw [noNL3_cons_cons_cons, Bool.and_eq_true]
        refine ⟨h.1, ih ?_⟩
        simp only [List.cons_append]
        exact h.2

theorem noNL3_dropWhile {p : Char → Bool} {l : List Char}
    (h : noNL3 l = true) : noNL3 (l.dropWhile p) = true := by
  induction l with
  | nil => exact h
  | cons a l ih =>
    rw [List.dropWhile_cons]
    split
    · exact ih (noNL3_tail h)
    · exact h

theorem stNN_cons (c : Char) (l : List Char) :
    stNN (c :: l) = (c == '\n' && headIsNL l) := by
  cases l <;> simp [stNN, headIsNL]

theorem noNL3_nl_stNN {l : List Char}
    (h : noNL3 ('\n' :: l) = true) : stNN l = false := by
  cases l with
  | nil => rfl
  | cons b t =>
    cases t with
    | nil => simp [stNN]
    | cons c r =>
      rw [noNL3_cons_cons_cons, Bool.and_eq_true, Bool.not_eq_true'] at h
      simp only [stNN]
      simpa using h.1

/-! ### `dropHTBeforeNL`: behaviour and output shape -/

theorem mem_dropHTBeforeNL {c : Char} {l : List Char}
    (h : c ∈ dropHTBeforeNL l) : c ∈ l := by
  induction l with
  | nil => simp [dropHTBeforeNL] at h
  | cons a l ih =>
    rw [dropHTBeforeNL] at h
    split at h
    · exact List.mem_cons_of_mem a (ih h)
    · rcases List.mem_cons.mp h with h | h
      · exact h ▸ List.mem_cons_self a l
      · exact List.mem_cons_of_mem a (ih h)

theorem head_nl_dropHTBeforeNL {l : List Char}
    (h : (dropHTBeforeNL l).head? = some '\n') :
    (l.dropWhile isHT).head? = some '\n' := by
  induction l with
  | nil => simp [dropHTBeforeNL] at h
  | cons a l ih =>
    rw [dropHTBeforeNL] at h
    by_cases hg : (isHT a && headIsNL (l.dropWhile isHT)) = true
    · rw [if_pos hg] at h
      rw [Bool.and_eq_true] at hg
      rw [List.dropWhile_cons, if_pos hg.1]
      exact ih h
    · rw [if_neg hg] at h
      simp only [List.head?] at h
      cases h
      rw [List.dropWhile_cons]
      have : isHT '\n' = false := by decide
      rw [if_neg (by simp [this])]
      rfl

theorem noHTNL_dropHTBeforeNL (l : List Char) :
    noAdj badHTNL (dropHTBeforeNL l) = true := by
  induction l with
  | nil => rfl
  | cons a l ih =>
    rw [dropHTBeforeNL]
    by_cases hg : (isHT a && headIsNL (l.dropWhile isHT)) = true
    · rw [if_pos hg]; exact ih
    · rw [if_neg hg]
      refine noAdj_cons_of ?_ ih
      intro b hb
      by_cases hbad : badHTNL a b = true
      · exfalso
        rw [badHTNL, Bool.and_eq_true, beq_iff_eq] at hbad
        apply hg
        rw [Bool.and_eq_true]
        refine ⟨hbad.1, ?_⟩
        have : (dropHTBeforeNL l).head? = some '\n' := hbad.2 ▸ hb
        have := head_nl_dropHTBeforeNL this
        rw [headIsNL, this]
        rfl
      · exact Bool.eq_false_iff.mpr hbad

theorem dropHTBeforeNL_id {l : List Char}
    (h2 : noAdj badHT2 l = true) (hn : noAdj badHTNL l = true) :
    dropHTBeforeNL l = l := by
  induction l with
  | nil => rfl
  | cons a l ih =>
    rw [dropHTBeforeNL]
    have htl : dropHTBeforeNL l = l := ih (noAdj_tail h2) (noAdj_tail hn)
    by_cases ha : isHT a = true
    · have hdw : l.dropWhile isHT = l := by
        cases l with
        | nil => rfl
        | cons b t =>
          rw [List.dropWhile_cons]
          have hb : isHT b = false := by
            have := noAdj_head h2 b rfl
            rw [badHT2, ha] at this
            simpa using this
          simp [hb]
      have hh : headIsNL (l.dropWhile isHT) = false := by
        rw [hdw]
        cases l with
        | nil => rfl
        | cons b t =>
          have hb := noAdj_head hn b rfl
          rw [badHTNL, ha] at hb
          simp only [Bool.true_and] at hb
          simp [headIsNL, hb]
      rw [if_neg (by simp [hh]), htl]
    · rw [if_neg (by simp [ha]), htl]

/-! ### `collapseNL`: behaviour and output shape -/

theorem mem_collapseNLGo {c : Char} {n : Nat} {l : List Char}
    (h : c ∈ collapseNLGo n l) : c ∈ l := by
  induction l generalizing n with
  | nil => simp [collapseNLGo] at h
  | cons a l ih =>
    rw [collapseNLGo] at h
    by_cases ha : (a == '\n') = true
    · rw [if_pos ha] at h
      by_cases hn : 2 ≤ n
      · rw [if_pos hn] at h
        exact List.mem_cons_of_mem a (ih h)
      · rw [if_neg hn] at h
        rcases List.mem_cons.mp h with h | h
        · exact h ▸ List.mem_cons_self a l
        · exact List.mem_cons_of_mem a (ih h)
    · rw [if_neg ha] at h
      rcases List.mem_cons.mp h with h | h
      · exact h ▸ List.mem_cons_self a l
      · exact List.mem_cons_of_mem a (ih h)

theorem head?_collapseNLGo_zero (l : List Char) :
    (collapseNLGo 0 l).head? = l.head? := by
  cases l with
  | nil => rfl
  | cons a l =>
    rw [collapseNLGo]
    by_cases ha : (a == '\n') = true
    · rw [if_pos ha, if_neg (by omega)]; rfl
    · rw [if_neg ha]; rfl

theorem noNL3_collapseNLGo (l : List Char) :
    ∀ n, noNL3 (collapseNLGo n l) = true ∧
      (1 ≤ n → stNN (collapseNLGo n l) = false) ∧
      (2 ≤ n → headIsNL (collapseNLGo n l) = false) := by
  induction l with
  | nil => intro n; exact ⟨rfl, fun _ => rfl, fun _ => rfl⟩
  | cons a l ih =>
    intro n
    rw [collapseNLGo]
    by_cases ha : (a == '\n') = true
    · rw [if_pos ha]
      by_cases hn : 2 ≤ n
      · rw [if_pos hn]
        obtain ⟨H1, H2, H3⟩ := ih (n + 1)
        exact ⟨H1, fun _ => H2 (by omega), fun _ => H3 (by omega)⟩
      · rw [if_neg hn]
        obtain ⟨H1, H2, H3⟩ := ih (n + 1)
        have ha' : a = '\n' := by simpa using ha
        refine ⟨?_, ?_, ?_⟩
        · exact noNL3_cons_of (fun _ => H2 (by omega)) H1
        · intro h1
          have hn1 : n = 1 := by omega
          rw [stNN_cons]
          have := H3 (by omega)
          simp [this]
        · intro h2; omega
    · rw [if_neg ha]
      obtain ⟨H1, _, _⟩ := ih 0
      have ha' : ¬a = '\n' := by simpa using ha
      refine ⟨?_, ?_, ?_⟩
      · exact noNL3_cons_of (fun h => absurd h ha') H1
      · intro _
        rw [stNN_cons]
        simp [ha]
      · intro _
        simp [headIsNL, ha]

theorem noNL3_collapseNL (l : List Char) : noNL3 (collapseNL l) = true :=
  (noNL3_collapseNLGo l 0).1

theorem collapseNLGo_id {l : List Char} :
    ∀ n, noNL3 l = true → (1 ≤ n → stNN l = false) →
      (2 ≤ n → headIsNL l = false) → collapseNLGo n l = l := by
  induction l with
  | nil => intro n _ _ _; rfl
  | cons a l ih =>
    intro n h3 hNN hN
    rw [collapseNLGo]
    by_cases ha : (a == '\n') = true
    · have ha' : a = '\n' := by simpa using ha
      have hn2 : ¬2 ≤ n := by
        intro hn
        have := hN hn
        rw [headIsNL] at this
        simp only [List.head?] at this
        rw [ha] at this
        exact absurd this (by simp)
      rw [if_pos ha, if_neg hn2]
      have hstnn : stNN l = false := by
        rw [ha'] at h3
        exact noNL3_nl_stNN h3
      have hrec : collapseNLGo (n + 1) l = l := by
        apply ih (n + 1) (noNL3_tail h3) (fun _ => hstnn)
        intro hn1
        have : 1 ≤ n := by omega
        have := hNN this
        rw [stNN_cons, ha] at this
        simpa using this
      rw [hrec]
    · rw [if_neg ha]
      rw [ih 0 (noNL3_tail h3) (by omega) (by omega)]

theorem collapseNL_id {l : List Char} (h : noNL3 l = true) :
    collapseNL l = l :=
  collapseNLGo_id 0 h (by omega) (by omega)

theorem noHTNL_collapseNLGo {l : List Char}
    (h : noAdj badHTNL l = true) :
    ∀ n, noAdj badHTNL (collapseNLGo n l) = true := by
  induction l with
  | nil => intro n; rfl
  | cons a l ih =>
    intro n
    rw [collapseNLGo]
    by_cases ha : (a == '\n') = true
    · rw [if_pos ha]
      by_cases hn : 2 ≤ n
      · rw [if_pos hn]
        exact ih (noAdj_tail h) (n + 1)
      · rw [if_neg hn]
        refine noAdj_cons_of ?_ (ih (noAdj_tail h) (n + 1))
        intro b _
        have ha' : a = '\n' := by simpa using ha
        rw [badHTNL, ha']
        have hf : isHT '\n' = false := by decide
        rw [hf, Bool.false_and]
    · rw [if_neg ha]
      refine noAdj_cons_of ?_ (ih (noAdj_tail h) 0)
      intro b hb
      rw [head?_collapseNLGo_zero] at hb
      exact noAdj_head h b hb

theorem noHTNL_collapseNL {l : List Char}
    (h : noAdj badHTNL l = true) : noAdj badHTNL (collapseNL l) = true :=
  noHTNL_collapseNLGo h 0

/-! ### `collapseHT`: behaviour and output shape -/

theorem mem_collapseHTGo {c : Char} {b : Bool} {l : List Char}
    (h : c ∈ collapseHTGo b l) : c ∈ l ∨ c = ' ' := by
  induction l generalizing b with
  | nil => simp [collapseHTGo] at h
  | cons a l ih =>
    rw [collapseHTGo] at h
    by_cases ha : isHT a = true
    · rw [if_pos ha] at h
      cases b with
      | true =>
        rw [if_pos rfl] at h
        rcases ih h with h | h
        · exact Or.inl (List.mem_cons_of_mem a h)
        · exact Or.inr h
      | false =>
        rw [if_neg (by simp)] at h
        by_cases hh : headIsHT l = true
        · rw [if_pos hh] at h
          rcases List.mem_cons.mp h with h | h
          · exact Or.inr h
          · rcases ih h with h | h
            · exact Or.inl (List.mem_cons_of_mem a h)
            · exact Or.inr h
        · rw [if_neg hh] at h
          rcases List.mem_cons.mp h with h | h
          · exact Or.inl (h ▸ List.mem_cons_self a l)
          · rcases ih h with h | h
            · exact Or.inl (List.mem_cons_of_mem a h)
            · exact Or.inr h
    · rw [if_neg ha] at h
      rcases List.mem_cons.mp h with h | h
      · exact Or.inl (h ▸ List.mem_cons_self a l)
      · rcases ih h with h | h
        · exact Or.inl (List.mem_cons_of_mem a h)
        · exact Or.inr h

theorem headIsHT_collapseHTGo_false (l : List Char) :
    headIsHT (collapseHTGo false l) = headIsHT l := by
  cases l with
  | nil => rfl
  | cons a l =>
    rw [collapseHTGo]
    by_cases ha : isHT a = true
    · rw [if_pos ha, if_neg (by simp)]
      by_cases hh : headIsHT l = true
      · rw [if_pos hh]
        have h1 : headIsHT (' ' :: collapseHTGo true l) = true := rfl
        have h2 : headIsHT (a :: l) = isHT a := rfl
        rw [h1, h2, ha]
      · rw [if_neg hh]
        simp [headIsHT]
    · rw [if_neg ha]
      simp [headIsHT]

theorem headIsHT_collapseHTGo_true (l : List Char) :
    headIsHT (collapseHTGo true l) = false := by
  induction l with
  | nil => rfl
  | cons a l ih =>
    rw [collapseHTGo]
    by_cases ha : isHT a = true
    · rw [if_pos ha, if_pos rfl]
      exact ih
    · rw [if_neg ha]
      simp [headIsHT, ha]

theorem head?_collapseHTGo_false_not_ht {d : Char} {r : List Char}
    (hd : isHT d = false) :
    (collapseHTGo false (d :: r)).head? = some d := by
  rw [collapseHTGo, if_neg (by simp [hd])]
  rfl

theorem noHT2_collapseHTGo (l : List Char) :
    ∀ b, noAdj badHT2 (collapseHTGo b l) = true := by
  induction l with
  | nil => intro b; rfl
  | cons a l ih =>
    intro b
    rw [collapseHTGo]
    by_cases ha : isHT a = true
    · rw [if_pos ha]
      cases b with
      | true =>
        rw [if_pos rfl]
        exact ih true
      | false =>
        rw [if_neg (by simp)]
        by_cases hh : headIsHT l = true
        · rw [if_pos hh]
          refine noAdj_cons_of ?_ (ih true)
          intro c hc
          rw [badHT2]
          have hht : headIsHT (collapseHTGo true l) = false :=
            headIsHT_collapseHTGo_true l
          rw [headIsHT, hc] at hht
          simp only at hht
          rw [hht, Bool.and_false]
        · rw [if_neg hh]
          refine noAdj_cons_of ?_ (ih false)
          intro c hc
          rw [badHT2]
          have hht : headIsHT (collapseHTGo false l) = headIsHT l :=
            headIsHT_collapseHTGo_false l
          rw [headIsHT, hc] at hht
          simp only at hht
          rw [hht, Bool.eq_false_iff.mpr hh, Bool.and_false]
    · rw [if_neg ha]
      refine noAdj_cons_of ?_ (ih false)
      intro c _
      rw [badHT2, Bool.eq_false_iff.mpr ha, Bool.false_and]

theorem noHT2_collapseHT (l : List Char) : noAdj badHT2 (collapseHT l) = true :=
  noHT2_collapseHTGo l false

theorem collapseHT_id {l : List Char} (h : noAdj badHT2 l = true) :
    collapseHTGo false l = l := by
  induction l with
  | nil => rfl
  | cons a l ih =>
    rw [collapseHTGo]
    have htl : collapseHTGo false l = l := ih (noAdj_tail h)
    by_cases ha : isHT a = true
    · rw [if_pos ha, if_neg (by simp)]
      have hh : headIsHT l = false := by
        cases l with
        | nil => rfl
        | cons d r =>
          have := noAdj_head h d rfl
          rw [badHT2, ha] at this
          simp only [Bool.true_and] at this
          simp [headIsHT, this]
      rw [if_neg (by simp [hh]), htl]
    · rw [if_neg ha, htl]

theorem headIsNL_collapseHTGo_true {h : Char} {l : List Char}
    (hadj : noAdj badHTNL (h :: l) = true) (hh : isHT h = true) :
    headIsNL (collapseHTGo true l) = false := by
  induction l generalizing h with
  | nil => rfl
  | cons a l ih =>
    rw [collapseHTGo]
    by_cases ha : isHT a = true
    · rw [if_pos ha, if_pos rfl]
      exact ih (noAdj_tail hadj) ha
    · rw [if_neg ha]
      have := noAdj_head hadj a rfl
      rw [badHTNL, hh] at this
      simp only [Bool.true_and] at this
      simp [headIsNL, this]

theorem noHTNL_collapseHTGo {l : List Char}
    (h : noAdj badHTNL l = true) :
    ∀ b, noAdj badHTNL (collapseHTGo b l) = true := by
  induction l with
  | nil => intro b; rfl
  | cons a l ih =>
    intro b
    rw [collapseHTGo]
    by_cases ha : isHT a = true
    · rw [if_pos ha]
      cases b with
      | true =>
        rw [if_pos rfl]
        exact ih (noAdj_tail h) true
      | false =>
        rw [if_neg (by simp)]
        by_cases hh : headIsHT l = true
        · rw [if_pos hh]
          refine noAdj_cons_of ?_ (ih (noAdj_tail h) true)
          intro c hc
          rw [badHTNL]
          have hnl := headIsNL_collapseHTGo_true h ha
          rw [headIsNL, hc] at hnl
          simp only at hnl
          rw [hnl, Bool.and_false]
        · rw [if_neg hh]
          refine noAdj_cons_of ?_ (ih (noAdj_tail h) false)
          intro c hc
          cases l with
          | nil => simp [collapseHTGo] at hc
          | cons d r =>
            have hd : isHT d = false := by
              rw [headIsHT] at hh
              simpa using hh
            rw [head?_collapseHTGo_false_not_ht hd] at hc
            have hdc : d = c := by simpa using hc
            rw [← hdc]
            exact noAdj_head h d rfl
    · rw [if_neg ha]
      refine noAdj_cons_of ?_ (ih (noAdj_tail h) false)
      intro c _
      rw [badHTNL, Bool.eq_false_iff.mpr ha, Bool.false_and]

theorem headIsNL_collapseHTGo_false (l : List Char) :
    headIsNL (collapseHTGo false l) = headIsNL l := by
  cases l with
  | nil => rfl
  | cons a l =>
    rw [collapseHTGo]
    by_cases ha : isHT a = true
    · rw [if_pos ha, if_neg (by simp)]
      have hanl : (a == '\n') = false := by
        rw [isHT] at ha
        rcases Bool.or_eq_true_iff.mp ha with h | h
        · rw [beq_iff_eq] at h; simp [h]
        · rw [beq_iff_eq] at h; simp [h]
      by_cases hh : headIsHT l = true
      · rw [if_pos hh]
        have h1 : headIsNL (' ' :: collapseHTGo true l) = false := rfl
        have h2 : headIsNL (a :: l) = (a == '\n') := rfl
        rw [h1, h2, hanl]
      · rw [if_neg hh]
        simp [headIsNL]
    · rw [if_neg ha]
      simp [headIsNL]

theorem stNN_collapseHTGo_false {l : List Char}
    (h : stNN (collapseHTGo false l) = true) : stNN l = true := by
  cases l with
  | nil => exact h
  | cons a r =>
    rw [collapseHTGo] at h
    by_cases ha : isHT a = true
    · exfalso
      have hanl : (a == '\n') = false := by
        rw [isHT] at ha
        rcases Bool.or_eq_true_iff.mp ha with hx | hx
        · rw [beq_iff_eq] at hx; simp [hx]
        · rw [beq_iff_eq] at hx; simp [hx]
      rw [if_pos ha, if_neg (by simp)] at h
      by_cases hh : headIsHT r = true
      · rw [if_pos hh] at h
        rw [stNN_cons] at h
        simp at h
      · rw [if_neg hh] at h
        rw [stNN_cons, hanl, Bool.false_and] at h
        exact absurd h (by simp)
    · rw [if_neg ha] at h
      rw [stNN_cons, headIsNL_collapseHTGo_false] at h
      rw [stNN_cons]
      exact h

theorem noNL3_collapseHTGo {l : List Char}
    (h : noNL3 l = true) :
    ∀ b, noNL3 (collapseHTGo b l) = true := by
  induction l with
  | nil => intro b; rfl
  | cons a l ih =>
    intro b
    rw [collapseHTGo]
    by_cases ha : isHT a = true
    · have hanl : ¬a = '\n' := by
        intro hc
        rw [hc] at ha
        exact absurd ha (by decide)
      rw [if_pos ha]
      cases b with
      | true =>
        rw [if_pos rfl]
        exact ih (noNL3_tail h) true
      | false =>
        rw [if_neg (by simp)]
        by_cases hh : headIsHT l = true
        · rw [if_pos hh]
          exact noNL3_cons_of (fun hc => absurd hc (by decide))
            (ih (noNL3_tail h) true)
        · rw [if_neg hh]
          exact noNL3_cons_of (fun hc => absurd hc hanl)
            (ih (noNL3_tail h) false)
    · rw [if_neg ha]
      refine noNL3_cons_of ?_ (ih (noNL3_tail h) false)
      intro hanl
      by_cases hstnn : stNN (collapseHTGo false l) = true
      · exfalso
        have := stNN_collapseHTGo_false hstnn
        rw [hanl] at h
        rw [noNL3_nl_stNN h] at this
        exact absurd this (by simp)
      · simpa using hstnn

/-! ### `trimRight` and `jsTrim`: behaviour and output shape -/

theorem trimRight_append (l : List Char) : ∃ t, l = trimRight l ++ t := by
  induction l with
  | nil => exact ⟨[], rfl⟩
  | cons c rest ih =>
    rw [trimRight]
    obtain ⟨t, ht⟩ := ih
    cases hr : trimRight rest with
    | nil =>
      by_cases hc : isJSWS c = true
      · rw [if_pos hc]
        exact ⟨c :: rest, rfl⟩
      · rw [if_neg hc]
        refine ⟨rest, ?_⟩
        simp
    | cons d s =>
      refine ⟨t, ?_⟩
      rw [hr] at ht
      simp only [List.cons_append]
      rw [ht, List.cons_append]

theorem mem_trimRight {c : Char} {l : List Char}
    (h : c ∈ trimRight l) : c ∈ l := by
  obtain ⟨t, ht⟩ := trimRight_append l
  rw [ht]
  exact List.mem_append_left t h

theorem head?_trimRight {c : Char} {l : List Char}
    (h : (trimRight l).head? = some c) : l.head? = some c := by
  cases l with
  | nil => simp [trimRight] at h
  | cons a rest =>
    rw [trimRight] at h
    cases hr : trimRight rest with
    | nil =>
      rw [hr] at h
      by_cases ha : isJSWS a = true
      · rw [if_pos ha] at h
        simp at h
      · rw [if_neg ha] at h
        simp only [List.head?] at h
        exact h
    | cons d s =>
      rw [hr] at h
      simp only [List.head?] at h
      exact h

theorem lastNotWS_trimRight (l : List Char) :
    lastNotWS (trimRight l) = true := by
  induction l with
  | nil => rfl
  | cons a rest ih =>
    rw [trimRight]
    cases hr : trimRight rest with
    | nil =>
      by_cases ha : isJSWS a = true
      · rw [if_pos ha]; rfl
      · rw [if_neg ha]
        simp [lastNotWS, ha]
    | cons d s =>
      rw [hr] at ih
      rw [lastNotWS] at ih ⊢
      rw [List.getLast?_cons_cons]
      exact ih

theorem trimRight_id {l : List Char} (h : lastNotWS l = true) :
    trimRight l = l := by
  induction l with
  | nil => rfl
  | cons a rest ih =>
    rw [trimRight]
    cases rest with
    | nil =>
      rw [lastNotWS] at h
      simp only [List.getLast?_singleton] at h
      rw [trimRight]
      rw [if_neg (by simpa using h)]
    | cons b r =>
      have htl : lastNotWS (b :: r) = true := by
        rw [lastNotWS] at h ⊢
        rw [List.getLast?_cons_cons] at h
        exact h
      rw [ih htl]

theorem head?_dropWhile_not {p : Char → Bool} {c : Char} {l : List Char}
    (h : (l.dropWhile p).head? = some c) : p c = false := by
  induction l with
  | nil => simp at h
  | cons a rest ih =>
    rw [List.dropWhile_cons] at h
    split at h
    · exact ih h
    · simp only [List.head?] at h
      cases h
      rename_i hp
      simpa using hp

theorem dropWhile_id_of_head {p : Char → Bool} {l : List Char}
    (h : ∀ c, l.head? = some c → p c = false) : l.dropWhile p = l := by
  cases l with
  | nil => rfl
  | cons a rest =>
    rw [List.dropWhile_cons]
    rw [if_neg (by simp [h a rfl])]

/-! ### `clean` output is in normal form, and `clean` fixes normal forms -/

theorem not_ctrl_mem_clean {l : List Char} {c : Char}
    (h : c ∈ clean l) : isCtrl c = false := by
  rw [clean, jsTrim] at h
  have h1 := mem_trimRight h
  have h2 : c ∈ collapseHT (collapseNL (dropHTBeforeNL (stripCtrl (stripNul l)))) :=
    (List.dropWhile_sublist _).mem h1
  rcases mem_collapseHTGo h2 with h3 | h3
  · have h4 := mem_collapseNLGo h3
    have h5 := mem_dropHTBeforeNL h4
    rw [stripCtrl] at h5
    have := List.mem_filter.mp h5
    simpa using this.2
  · rw [h3]; decide

theorem noHTNL_clean (l : List Char) : noAdj badHTNL (clean l) = true := by
  rw [clean, jsTrim]
  obtain ⟨t, ht⟩ := trimRight_append
    ((collapseHT (collapseNL (dropHTBeforeNL (stripCtrl (stripNul l))))).dropWhile isJSWS)
  refine noAdj_append_left (l := trimRight _) (t := t) ?_
  rw [← ht]
  exact noAdj_dropWhile (noHTNL_collapseHTGo (noHTNL_collapseNL
    (noHTNL_dropHTBeforeNL _)) false)

theorem noHT2_clean (l : List Char) : noAdj badHT2 (clean l) = true := by
  rw [clean, jsTrim]
  obtain ⟨t, ht⟩ := trimRight_append
    ((collapseHT (collapseNL (dropHTBeforeNL (stripCtrl (stripNul l))))).dropWhile isJSWS)
  refine noAdj_append_left (l := trimRight _) (t := t) ?_
  rw [← ht]
  exact noAdj_dropWhile (noHT2_collapseHT _)

theorem noNL3_clean (l : List Char) : noNL3 (clean l) = true := by
  rw [clean, jsTrim]
  obtain ⟨t, ht⟩ := trimRight_append
    ((collapseHT (collapseNL (dropHTBeforeNL (stripCtrl (stripNul l))))).dropWhile isJSWS)
  refine noNL3_append_left (l := trimRight _) (t := t) ?_
  rw [← ht]
  exact noNL3_dropWhile (noNL3_collapseHTGo (noNL3_collapseNL _) false)

theorem headNotWS_clean (l : List Char) : headNotWS (clean l) = true := by
  rw [clean, jsTrim, headNotWS]
  cases hh : (trimRight
      ((collapseHT (collapseNL (dropHTBeforeNL (stripCtrl (stripNul l))))).dropWhile
        isJSWS)).head? with
  | none => rfl
  | some c =>
    have h1 := head?_trimRight hh
    have h2 := head?_dropWhile_not h1
    simp [h2]

theorem lastNotWS_clean (l : List Char) : lastNotWS (clean l) = true := by
  rw [clean, jsTrim]
  exact lastNotWS_trimRight _

theorem cleaned_clean (l : List Char) : cleaned (clean l) = true := by
  rw [cleaned]
  simp only [Bool.and_eq_true]
  refine ⟨⟨⟨⟨⟨?_, noHTNL_clean l⟩, noHT2_clean l⟩, noNL3_clean l⟩,
    headNotWS_clean l⟩, lastNotWS_clean l⟩
  rw [List.all_eq_true]
  intro c hc
  simp [not_ctrl_mem_clean hc]

theorem clean_fix {l : List Char} (h : cleaned l = true) : clean l = l := by
  rw [cleaned] at h
  simp only [Bool.and_eq_true] at h
  obtain ⟨⟨⟨⟨⟨hall, hhtnl⟩, hht2⟩, hnl3⟩, hhead⟩, hlast⟩ := h
  rw [List.all_eq_true] at hall
  have hctrl : ∀ c ∈ l, isCtrl c = false := by
    intro c hc
    have := hall c hc
    simpa using this
  have e1 : stripNul l = l := by
    rw [stripNul]
    rw [List.filter_eq_self]
    intro c hc
    have : isCtrl c = false := hctrl c hc
    by_cases hcc : c = '\x00'
    · rw [hcc] at this
      exact absurd this (by decide)
    · simpa using hcc
  have e2 : stripCtrl l = l := by
    rw [stripCtrl]
    rw [List.filter_eq_self]
    intro c hc
    simp [hctrl c hc]
  have e3 : dropHTBeforeNL l = l := dropHTBeforeNL_id hht2 hhtnl
  have e4 : collapseNL l = l := collapseNL_id hnl3
  have e5 : collapseHT l = l := collapseHT_id hht2
  have e6 : l.dropWhile isJSWS = l := by
    apply dropWhile_id_of_head
    intro c hc
    rw [headNotWS, hc] at hhead
    simpa using hhead
  have e7 : trimRight l = l := trimRight_id hlast
  rw [clean, e1, e2, e3, e4, e5, jsTrim, e6, e7]

/-- **C2.** The sanitize transform `clean`, applied uniformly to all
extracted text, is idempotent: `clean (clean s) = clean s` for every
string `s`. -/
theorem clean_idempotent : ∀ s : List Char, clean (clean s) = clean s :=
  fun s => clean_fix (cleaned_clean s)

/-! ## Pipeline data model

Embedding of the `serve` handler of the robust `extract-content`
variant.  The row store, blob store, auth backend, pdf.js and the JSON
round-trip (`JSON.parse` + `JSON.stringify(−, null, 2)`) are external
collaborators, modelled as components of `Env`. -/

/-- `MAX_OUTPUT_CHARS`. -/
def maxOutputChars : Nat := 50000

/-- `MAX_PDF_PAGES` — the hard page ceiling. -/
def maxPdfPages : Nat := 1000

/-- `SOFT_PDF_PAGES_LIMIT` — the soft cap of pages actually scanned. -/
def softPdfPagesLimit : Nat := 400

/-- Decimal rendering of a number, as in JS template interpolation. -/
def natStr (n : Nat) : List Char := (Nat.repr n).data

def stComplete : List Char := "complete".data
def stFailed : List Char := "failed".data
def stPending : List Char := "pending".data
def msgUsePost : List Char := "Use POST.".data
def msgMissingEnv : List Char := "Missing SUPABASE_URL or SUPABASE_SERVICE_ROLE_KEY".data
def msgNoAuth : List Char := "No authorization header".data
def msgUnauthorized : List Char := "Unauthorized".data
def msgBadJson : List Char := "Invalid JSON body".data
def msgMissingDocId : List Char := "Missing \x27documentId\x27 (string)".data
def msgMissingPath : List Char := "Missing \x27filePath\x27 (string)".data
def msgDownloadFailed : List Char := "Failed to download file".data
def msgEncrypted : List Char := "Encrypted or password-protected PDF not supported.".data
def msgCorrupt : List Char := "Unable to open PDF (possibly corrupted).".data
def msgImagePdf : List Char :=
  "This PDF appears to be image-based or contains non-extractable text. Consider OCR.".data
def msgUnsupported : List Char :=
  "Content extraction not supported for this file type. Supported: PDF, TXT, MD, CSV, JSON".data
def msgSaveFailed : List Char := "Failed to save extracted content".data
def msgNotFound : List Char := "Document not found for this user".data

/-- Template `PDF has N pages (limit M).` -/
def pageLimitMsg (n : Nat) : List Char :=
  "PDF has ".data ++ natStr n ++ " pages (limit ".data ++ natStr maxPdfPages ++ ").".data

/-- Template `[Truncated at cap/total pages for size/performance.]` -/
def truncMsg (cap total : Nat) : List Char :=
  "[Truncated at ".data ++ natStr cap ++ "/".data ++ natStr total ++
    " pages for size/performance.]".data

/-- A positioned text item as returned by `page.getTextContent()`: its
string and, when present, `transform[4]`/`transform[5]` (x and y). -/
structure PdfItem where
  str : List Char
  transform : Option (Int × Int)

/-- One PDF page: its list of positioned text items. -/
structure PdfPage where
  items : List PdfItem

/-- Result of `getDocument(...).promise`: either a rejection with an error
message, or a parsed document given by its pages. -/
inductive PdfParse
  | failOpen (msg : List Char)
  | doc (pages : List PdfPage)

/-- A downloaded blob: what `fileData.text()` yields and what pdf.js
yields for its bytes. -/
structure FileData where
  text : List Char
  pdf : PdfParse

/-- One row of the `documents` table (the columns this function touches). -/
structure DocRow where
  id : List Char
  user_id : List Char
  content : Option (List Char)
  extraction_status : List Char
  failure_reason : Option (List Char)
  deriving DecidableEq

/-- The external world: environment configuration, auth backend, blob
store, JSON round-trip oracle, row-store health, and the table state. -/
structure Env where
  envOk : Bool
  getUser : List Char → Option (List Char)
  download : List Char → Option FileData
  jsonPretty : List Char → Option (List Char)
  updateFails : Bool
  db : List DocRow

inductive Method
  | options | post | other
  deriving DecidableEq

/-- The parsed JSON body; `none` fields model absent/non-string values. -/
structure Body where
  documentId : Option (List Char)
  filePath : Option (List Char)

/-- An incoming HTTP request; `body = none` models a JSON parse failure. -/
structure Request where
  method : Method
  authHeader : Option (List Char)
  body : Option Body

inductive RBody
  | empty
  | ok (content : List Char)
  | err (msg : List Char)
  deriving DecidableEq

structure Resp where
  status : Nat
  body : RBody
  deriving DecidableEq

/-- Observable side effects: paths downloaded and pages parsed. -/
structure EffLog where
  downloads : List (List Char)
  pagesParsed : Nat
  deriving DecidableEq

structure Outcome where
  resp : Resp
  db : List DocRow
  log : EffLog
  deriving DecidableEq

/-- Effect of the scoped update of `saveExtraction` on one row: the
payload sets `extraction_status` always, `content` only when the status
is `"complete"`, and `failure_reason` only when a truthy reason is given
(truncated to 500 characters). -/
def saveApply (userId documentId content status : List Char)
    (failureReason : Option (List Char)) (r : DocRow) : DocRow :=
  if r.id == documentId && r.user_id == userId then
    { r with
      extraction_status := status
      content := if status == stComplete then some content else r.content
      failure_reason :=
        match failureReason with
        | some f => if f == [] then r.failure_reason else some (f.take 500)
        | none => r.failure_reason }
  else r

structure SaveResult where
  error : Bool
  dataId : Option (List Char)
  deriving DecidableEq

/-- `saveExtraction`: the scoped update
`.update(payload).eq("id", documentId).eq("user_id", userId).select("id").single()`.
Per the supabase/PostgREST contract, `.single()` reports an error unless
exactly one row is returned (error code PGRST116 when zero rows match),
with `data` null in that case. -/
def runSave (env : Env) (db : List DocRow)
    (userId documentId content status : List Char)
    (failureReason : Option (List Char)) : SaveResult × List DocRow :=
  if env.updateFails then (⟨true, none⟩, db)
  else
    let matched := db.filter (fun r => r.id == documentId && r.user_id == userId)
    let db1 := db.map (saveApply userId documentId content status failureReason)
    match matched with
    | [r] => (⟨false, some r.id⟩, db1)
    | _ => (⟨true, none⟩, db1)

/-- `filePathRaw.replace(/^\/+/, "")`: remove the maximal leading run of
slashes (the regex is anchored and not global, so only the leading run
is touched). -/
def normalizePath (l : List Char) : List Char :=
  l.dropWhile (fun c => c == '/')

/-- `filePath.toLowerCase()` (ASCII, as used for the suffix dispatch). -/
def lowerPath (l : List Char) : List Char := l.map Char.toLower

/-- Case-sensitive suffix test (`String.prototype.endsWith`). -/
def endsWithA (pat l : List Char) : Bool := pat.isSuffixOf l

/-- Substring test, used for the regex `/password|encrypted/i` test on
the pdf.js rejection message. -/
def containsSub (pat l : List Char) : Bool :=
  l.tails.any (fun t => pat.isPrefixOf t)

/-- The `/password|encrypted/i.test(msg)` check. -/
def matchPwd (msg : List Char) : Bool :=
  containsSub "password".data (msg.map Char.toLower) ||
  containsSub "encrypted".data (msg.map Char.toLower)

/-- State of the per-page item loop: current line, last coordinates, and
the accumulated `pages` array of emitted lines. -/
structure PScan where
  line : List Char
  lastX : Int
  lastY : Int
  acc : List (List Char)

/-- One text item of the page loop: start a new line when the y
coordinate changes by more than 2 or the x coordinate moves backward by
more than 2; otherwise append with a single space. -/
def itemStep (st : PScan) (it : PdfItem) : PScan :=
  if it.str == [] then st
  else
    let x := match it.transform with | some t => t.1 | none => st.lastX
    let y := match it.transform with | some t => t.2 | none => st.lastY
    if (y ≠ st.lastY ∧ 2 < (y - st.lastY).natAbs) ∨ x < st.lastX - 2 then
      let line1 := trimRight st.line
      { line := it.str, lastX := x, lastY := y
        acc := if line1 == [] then st.acc else st.acc ++ [line1] }
    else
      { line := if st.line == [] then it.str else st.line ++ ' ' :: it.str
        lastX := x, lastY := y, acc := st.acc }

/-- One page of the page loop: fold the items, flush the last line, then
push an empty line as page break. -/
def pageScan (acc : List (List Char)) (page : PdfPage) : List (List Char) :=
  let st := page.items.foldl itemStep ⟨[], 0, 0, acc⟩
  (if st.line == [] then st.acc else st.acc ++ [trimRight st.line]) ++ [[]]

/-- `pages.join("\n")`. -/
def joinNL : List (List Char) → List Char
  | [] => []
  | [x] => x
  | x :: y :: rest => x ++ '\n' :: joinNL (y :: rest)

/-- The `pages` array accumulated by the page loop: the emitted lines of
the scanned pages (capped at the soft limit), plus the truncation marker
when pages were skipped. -/
def pdfLines (pages : List PdfPage) : List (List Char) :=
  let cap := min pages.length softPdfPagesLimit
  let lines := (pages.take cap).foldl pageScan []
  if cap < pages.length then lines ++ [truncMsg cap pages.length] else lines

/-- Content produced for a successfully opened, within-limits PDF:
`clean(pages.join("\n")).slice(0, MAX_OUTPUT_CHARS)`, falling back to the
image-based message when empty. -/
def pdfContent (pages : List PdfPage) : List Char :=
  let c := (clean (joinNL (pdfLines pages))).take maxOutputChars
  if c == [] then msgImagePdf else c

/-- `raw.split(/\r?\n/)`: split at `\r\n` or `\n`; a lone `\r` is not a
separator. -/
def splitLinesGo (cur : List Char) : List Char → List (List Char)
  | [] => [cur.reverse]
  | '\r' :: '\n' :: rest => cur.reverse :: splitLinesGo [] rest
  | '\n' :: rest => cur.reverse :: splitLinesGo [] rest
  | c :: rest => splitLinesGo (c :: cur) rest

def splitCRLF (l : List Char) : List (List Char) := splitLinesGo [] l

/-- Worker for the per-CSV-line `.replace(/[ \t]+/g, " ")` (runs of one
or more spaces/tabs become a single space). -/
def collapseHT1Go : Bool → List Char → List Char
  | _, [] => []
  | inRun, c :: rest =>
    if isHT c then
      if inRun then collapseHT1Go true rest
      else ' ' :: collapseHT1Go true rest
    else c :: collapseHT1Go false rest

/-- Per-CSV-line transform `l.replace(/[ \t]+/g, " ").trimEnd()`. -/
def csvLine (l : List Char) : List Char := trimRight (collapseHT1Go false l)

/-- Result of the extraction phase: the content to save as complete, or
a failure reason (the `throw` paths of the `try` block). -/
inductive ExtractResult
  | ok (content : List Char)
  | fail (reason : List Char)

/-- The type-dispatched extraction (the body of the `try` block), paired
with the number of pages scanned. -/
def extractContent (env : Env) (lower : List Char) (f : FileData) :
    ExtractResult × Nat :=
  if endsWithA ".pdf".data lower then
    match f.pdf with
    | .failOpen msg =>
      (.fail (if matchPwd msg then msgEncrypted else msgCorrupt), 0)
    | .doc pages =>
      if maxPdfPages < pages.length then
        (.fail (pageLimitMsg pages.length), 0)
      else
        (.ok (pdfContent pages), min pages.length softPdfPagesLimit)
  else if endsWithA ".txt".data lower || endsWithA ".md".data lower then
    (.ok ((clean f.text).take maxOutputChars), 0)
  else if endsWithA ".csv".data lower then
    (.ok ((clean (joinNL ((splitCRLF f.text).map csvLine))).take maxOutputChars), 0)
  else if endsWithA ".json".data lower then
    match env.jsonPretty f.text with
    | some pretty => (.ok ((clean pretty).take maxOutputChars), 0)
    | none => (.ok ((clean f.text).take maxOutputChars), 0)
  else
    (.ok msgUnsupported, 0)

/-- The request processing after env/auth/body validation: download,
extract, save, respond. -/
def postAuth (env : Env) (uid documentId filePath : List Char) : Outcome :=
  match env.download filePath with
  | none =>
    let s := runSave env env.db uid documentId [] stFailed (some msgDownloadFailed)
    ⟨⟨502, RBody.err msgDownloadFailed⟩, s.2, ⟨[filePath], 0⟩⟩
  | some f =>
    match extractContent env (lowerPath filePath) f with
    | (.fail reason, np) =>
      let s := runSave env env.db uid documentId [] stFailed (some reason)
      ⟨⟨422, RBody.err reason⟩, s.2, ⟨[filePath], np⟩⟩
    | (.ok content, np) =>
      let s := runSave env env.db uid documentId content stComplete none
      if s.1.error then
        ⟨⟨500, RBody.err msgSaveFailed⟩, s.2, ⟨[filePath], np⟩⟩
      else
        match s.1.dataId with
        | none => ⟨⟨404, RBody.err msgNotFound⟩, s.2, ⟨[filePath], np⟩⟩
        | some _ => ⟨⟨200, RBody.ok content⟩, s.2, ⟨[filePath], np⟩⟩

/-- The `serve` handler of the robust `extract-content` variant. -/
def serve (env : Env) (req : Request) : Outcome :=
  if req.method = Method.options then
    ⟨⟨200, RBody.empty⟩, env.db, ⟨[], 0⟩⟩
  else if req.method = Method.post then
    if env.envOk then
      match req.authHeader with
      | none => ⟨⟨401, RBody.err msgNoAuth⟩, env.db, ⟨[], 0⟩⟩
      | some auth =>
        if ("Bearer ".data).isPrefixOf auth then
          match env.getUser (jsTrim (auth.drop 7)) with
          | none => ⟨⟨401, RBody.err msgUnauthorized⟩, env.db, ⟨[], 0⟩⟩
          | some uid =>
            match req.body with
            | none => ⟨⟨400, RBody.err msgBadJson⟩, env.db, ⟨[], 0⟩⟩
            | some bd =>
              match bd.documentId with
              | none => ⟨⟨400, RBody.err msgMissingDocId⟩, env.db, ⟨[], 0⟩⟩
              | some documentId =>
                if documentId = [] then
                  ⟨⟨400, RBody.err msgMissingDocId⟩, env.db, ⟨[], 0⟩⟩
                else
                  match bd.filePath with
                  | none => ⟨⟨400, RBody.err msgMissingPath⟩, env.db, ⟨[], 0⟩⟩
                  | some filePathRaw =>
                    if filePathRaw = [] then
                      ⟨⟨400, RBody.err msgMissingPath⟩, env.db, ⟨[], 0⟩⟩
                    else
                      postAuth env uid documentId (normalizePath filePathRaw)
        else ⟨⟨401, RBody.err msgNoAuth⟩, env.db, ⟨[], 0⟩⟩
    else ⟨⟨500, RBody.err msgMissingEnv⟩, env.db, ⟨[], 0⟩⟩
  else ⟨⟨405, RBody.err msgUsePost⟩, env.db, ⟨[], 0⟩⟩

/-! ## Reduction lemmas for `serve` -/

theorem serve_post {env : Env} {req : Request}
    {auth uid documentId filePathRaw : List Char}
    (hm : req.method = Method.post)
    (he : env.envOk = true)
    (ha : req.authHeader = some auth)
    (hb : ("Bearer ".data).isPrefixOf auth = true)
    (hu : env.getUser (jsTrim (auth.drop 7)) = some uid)
    (hbody : req.body = some ⟨some documentId, some filePathRaw⟩)
    (hd : documentId ≠ [])
    (hp : filePathRaw ≠ []) :
    serve env req = postAuth env uid documentId (normalizePath filePathRaw) := by
  obtain ⟨m, ah, bd⟩ := req
  simp only [] at hm ha hbody
  subst hm
  subst ha
  subst hbody
  simp [serve, he, hb, hu, hd, hp]

theorem serve_shape (env : Env) (req : Request) :
    (∃ uid documentId fp, serve env req = postAuth env uid documentId fp) ∨
    ((serve env req).db = env.db ∧ ∀ c, (serve env req).resp.body ≠ RBody.ok c) := by
  obtain ⟨m, ah, bd⟩ := req
  cases m with
  | options =>
    right
    exact ⟨by simp [serve], fun c => by simp [serve]⟩
  | other =>
    right
    exact ⟨by simp [serve], fun c => by simp [serve]⟩
  | post =>
    by_cases he : env.envOk = true
    · cases ah with
      | none =>
        right
        exact ⟨by simp [serve, he], fun c => by simp [serve, he]⟩
      | some auth =>
        by_cases hb : ("Bearer ".data).isPrefixOf auth = true
        · cases hu : env.getUser (jsTrim (auth.drop 7)) with
          | none =>
            right
            exact ⟨by simp [serve, he, hb, hu], fun c => by simp [serve, he, hb, hu]⟩
          | some uid =>
            cases bd with
            | none =>
              right
              exact ⟨by simp [serve, he, hb, hu], fun c => by simp [serve, he, hb, hu]⟩
            | some b =>
              obtain ⟨dOpt, pOpt⟩ := b
              cases dOpt with
              | none =>
                right
                exact ⟨by simp [serve, he, hb, hu], fun c => by simp [serve, he, hb, hu]⟩
              | some d =>
                by_cases hd : d = []
                · right
                  exact ⟨by simp [serve, he, hb, hu, hd],
                    fun c => by simp [serve, he, hb, hu, hd]⟩
                · cases pOpt with
                  | none =>
                    right
                    exact ⟨by simp [serve, he, hb, hu, hd],
                      fun c => by simp [serve, he, hb, hu, hd]⟩
                  | some p =>
                    by_cases hp : p = []
                    · right
                      exact ⟨by simp [serve, he, hb, hu, hd, hp],
                        fun c => by simp [serve, he, hb, hu, hd, hp]⟩
                    · left
                      exact ⟨uid, d, normalizePath p,
                        by simp [serve, he, hb, hu, hd, hp]⟩
        · rw [Bool.not_eq_true] at hb
          right
          exact ⟨by simp [serve, he, hb], fun c => by simp [serve, he, hb]⟩
    · right
      have he2 : env.envOk = false := by
        cases henv : env.envOk
        · rfl
        · exact absurd henv he
      exact ⟨by simp [serve, he2], fun c => by simp [serve, he2]⟩

/-! ## Facts about extraction results and the scoped save -/

/-- Successful content has no stripped control character. -/
def noBadCtrl (l : List Char) : Bool := l.all (fun c => !isCtrl c)

set_option maxHeartbeats 1600000 in
theorem msgImagePdf_length : msgImagePdf.length ≤ maxOutputChars := by decide

set_option maxHeartbeats 1600000 in
theorem msgUnsupported_length : msgUnsupported.length ≤ maxOutputChars := by decide

set_option maxHeartbeats 1600000 in
theorem msgImagePdf_noBadCtrl : noBadCtrl msgImagePdf = true := by decide

set_option maxHeartbeats 1600000 in
theorem msgUnsupported_noBadCtrl : noBadCtrl msgUnsupported = true := by decide

theorem pdfContent_cases (pages : List PdfPage) :
    (∃ t, pdfContent pages = (clean t).take maxOutputChars) ∨
    pdfContent pages = msgImagePdf := by
  rw [pdfContent]
  split
  · right; rfl
  · left; exact ⟨_, rfl⟩

theorem extract_ok_cases {env : Env} {lower : List Char} {f : FileData}
    {content : List Char} {np : Nat}
    (h : extractContent env lower f = (ExtractResult.ok content, np)) :
    (∃ t, content = (clean t).take maxOutputChars) ∨
    content = msgImagePdf ∨ content = msgUnsupported := by
  rw [extractContent] at h
  by_cases h1 : endsWithA ".pdf".data lower = true
  · rw [if_pos h1] at h
    cases hf : f.pdf with
    | failOpen msg =>
      rw [hf] at h
      simp only [] at h
      simp at h
    | doc pages =>
      rw [hf] at h
      simp only [] at h
      by_cases h2 : maxPdfPages < pages.length
      · rw [if_pos h2] at h
        simp at h
      · rw [if_neg h2] at h
        have hc : pdfContent pages = content := by
          have := congrArg Prod.fst h
          simpa using this
        rcases pdfContent_cases pages with ⟨t, ht⟩ | ht
        · exact Or.inl ⟨t, by rw [← hc, ht]⟩
        · exact Or.inr (Or.inl (by rw [← hc, ht]))
  · rw [if_neg h1] at h
    by_cases h2 : (endsWithA ".txt".data lower || endsWithA ".md".data lower) = true
    · rw [if_pos h2] at h
      have := congrArg Prod.fst h
      simp only [] at this
      cases this
      exact Or.inl ⟨f.text, rfl⟩
    · rw [if_neg h2] at h
      by_cases h3 : endsWithA ".csv".data lower = true
      · rw [if_pos h3] at h
        have := congrArg Prod.fst h
        simp only [] at this
        cases this
        exact Or.inl ⟨_, rfl⟩
      · rw [if_neg h3] at h
        by_cases h4 : endsWithA ".json".data lower = true
        · rw [if_pos h4] at h
          cases hj : env.jsonPretty f.text with
          | some pretty =>
            rw [hj] at h
            have := congrArg Prod.fst h
            simp only [] at this
            cases this
            exact Or.inl ⟨pretty, rfl⟩
          | none =>
            rw [hj] at h
            have := congrArg Prod.fst h
            simp only [] at this
            cases this
            exact Or.inl ⟨f.text, rfl⟩
        · rw [if_neg h4] at h
          have := congrArg Prod.fst h
          simp only [] at this
          cases this
          exact Or.inr (Or.inr rfl)

theorem ok_content_length {content : List Char}
    (h : (∃ t, content = (clean t).take maxOutputChars) ∨
      content = msgImagePdf ∨ content = msgUnsupported) :
    content.length ≤ maxOutputChars := by
  rcases h with ⟨t, rfl⟩ | rfl | rfl
  · rw [List.length_take]
    exact min_le_left _ _
  · exact msgImagePdf_length
  · exact msgUnsupported_length

theorem ok_content_noBadCtrl {content : List Char}
    (h : (∃ t, content = (clean t).take maxOutputChars) ∨
      content = msgImagePdf ∨ content = msgUnsupported) :
    noBadCtrl content = true := by
  rcases h with ⟨t, rfl⟩ | rfl | rfl
  · rw [noBadCtrl, List.all_eq_true]
    intro c hc
    have hmem : c ∈ clean t := List.take_subset _ _ hc
    simp [not_ctrl_mem_clean hmem]
  · exact msgImagePdf_noBadCtrl
  · exact msgUnsupported_noBadCtrl

theorem mem_runSave_db {env : Env} {db : List DocRow}
    {uid docId content status : List Char} {reason : Option (List Char)}
    {r : DocRow}
    (h : r ∈ (runSave env db uid docId content status reason).2) :
    r ∈ db ∨ ∃ r0, r0 ∈ db ∧ r = saveApply uid docId content status reason r0 := by
  rw [runSave] at h
  split at h
  · exact Or.inl h
  · simp only [] at h
    split at h
    · simp only [] at h
      obtain ⟨r0, hr0, heq⟩ := List.mem_map.mp h
      exact Or.inr ⟨r0, hr0, heq.symm⟩
    · simp only [] at h
      obtain ⟨r0, hr0, heq⟩ := List.mem_map.mp h
      exact Or.inr ⟨r0, hr0, heq.symm⟩

theorem saveApply_complete_content (uid docId content : List Char)
    (r0 : DocRow) :
    saveApply uid docId content stComplete none r0 = r0 ∨
    (saveApply uid docId content stComplete none r0).content = some content := by
  rw [saveApply]
  split
  · right
    simp
  · left
    rfl

theorem runSave_coupling {env : Env} {db : List DocRow}
    {uid docId content status : List Char} {reason : Option (List Char)}
    (hpre : ∀ r ∈ db, r.content = none ∧ r.extraction_status ≠ stComplete)
    (hst : status = stComplete ∨ status = stFailed)
    {r : DocRow} (hr : r ∈ (runSave env db uid docId content status reason).2) :
    (r.extraction_status = stComplete ↔ r.content ≠ none) := by
  rcases mem_runSave_db hr with hmem | ⟨r0, hr0, heq⟩
  · obtain ⟨hc, hs⟩ := hpre r hmem
    exact ⟨fun hcomp => absurd hcomp hs, fun hcn => absurd hc hcn⟩
  · rw [saveApply.eq_def] at heq
    split at heq
    · rcases hst with rfl | rfl
      · rw [heq]
        constructor
        · intro _
          simp
        · intro _
          rfl
      · rw [heq]
        constructor
        · intro hcomp
          have hcomp2 : stFailed = stComplete := hcomp
          exact absurd hcomp2 (by decide)
        · intro hcn
          exfalso
          apply hcn
          show (if (stFailed == stComplete) = true then some content
            else r0.content) = none
          rw [if_neg (by decide)]
          exact (hpre r0 hr0).1
    · rw [heq]
      obtain ⟨hc, hs⟩ := hpre r0 hr0
      exact ⟨fun hcomp => absurd hcomp hs, fun hcn => absurd hc hcn⟩

theorem runSave_failed_rows {env : Env} {db : List DocRow}
    {uid docId reason : List Char}
    (hre : reason ≠ [])
    {r : DocRow} (hr : r ∈ (runSave env db uid docId [] stFailed (some reason)).2)
    (hid : r.id = docId) (huser : r.user_id = uid)
    (hup : env.updateFails = false) :
    r.extraction_status = stFailed ∧ r.failure_reason = some (reason.take 500) := by
  rw [runSave, if_neg (by simp [hup])] at hr
  simp only [] at hr
  have hrmem : r ∈ db.map (saveApply uid docId [] stFailed (some reason)) := by
    split at hr
    · simpa using hr
    · simpa using hr
  obtain ⟨r0, hr0, heq⟩ := List.mem_map.mp hrmem
  rw [saveApply.eq_def] at heq
  split at heq
  · rw [← heq]
    have hfr : (reason == []) = false := by simpa using hre
    refine ⟨rfl, ?_⟩
    show (if (reason == []) = true then r0.failure_reason
      else some (reason.take 500)) = some (reason.take 500)
    rw [if_neg (by simp [hfr])]
  · exfalso
    rename_i hcond
    rw [← heq] at hid huser
    exact hcond (by simp [hid, huser])

/-! ## The download / extraction / save phases of `postAuth` -/

theorem postAuth_download_fail {env : Env} {uid docId fp : List Char}
    (hdl : env.download fp = none) :
    postAuth env uid docId fp =
      ⟨⟨502, RBody.err msgDownloadFailed⟩,
        (runSave env env.db uid docId [] stFailed (some msgDownloadFailed)).2,
        ⟨[fp], 0⟩⟩ := by
  rw [postAuth, hdl]

theorem postAuth_pdf_failopen {env : Env} {uid docId fp msg : List Char}
    {f : FileData}
    (hdl : env.download fp = some f)
    (hpdf : f.pdf = PdfParse.failOpen msg)
    (hsuf : endsWithA ".pdf".data (lowerPath fp) = true) :
    postAuth env uid docId fp =
      ⟨⟨422, RBody.err (if matchPwd msg = true then msgEncrypted else msgCorrupt)⟩,
        (runSave env env.db uid docId [] stFailed
          (some (if matchPwd msg = true then msgEncrypted else msgCorrupt))).2,
        ⟨[fp], 0⟩⟩ := by
  rw [postAuth, hdl]
  simp only []
  rw [extractContent, if_pos hsuf, hpdf]

theorem postAuth_pdf_toobig {env : Env} {uid docId fp : List Char}
    {f : FileData} {pages : List PdfPage}
    (hdl : env.download fp = some f)
    (hpdf : f.pdf = PdfParse.doc pages)
    (hsuf : endsWithA ".pdf".data (lowerPath fp) = true)
    (hbig : maxPdfPages < pages.length) :
    postAuth env uid docId fp =
      ⟨⟨422, RBody.err (pageLimitMsg pages.length)⟩,
        (runSave env env.db uid docId [] stFailed
          (some (pageLimitMsg pages.length))).2,
        ⟨[fp], 0⟩⟩ := by
  rw [postAuth, hdl]
  simp only []
  rw [extractContent, if_pos hsuf, hpdf]
  simp only []
  rw [if_pos hbig]

theorem postAuth_ok {env : Env} {uid docId fp c : List Char}
    (h : (postAuth env uid docId fp).resp.body = RBody.ok c) :
    (∃ t, c = (clean t).take maxOutputChars) ∨
    c = msgImagePdf ∨ c = msgUnsupported := by
  rw [postAuth] at h
  cases hdl : env.download fp with
  | none =>
    rw [hdl] at h
    simp at h
  | some f =>
    rw [hdl] at h
    simp only [] at h
    cases hext : extractContent env (lowerPath fp) f with
    | mk er np =>
      cases er with
      | fail reason =>
        rw [hext] at h
        simp at h
      | ok content =>
        rw [hext] at h
        simp only [] at h
        split at h
        · simp at h
        · split at h
          · simp at h
          · simp only [] at h
            have hc : content = c := by simpa using h
            exact hc ▸ extract_ok_cases hext

theorem postAuth_ok_rows {env : Env} {uid docId fp c : List Char} {r : DocRow}
    (h : (postAuth env uid docId fp).resp.body = RBody.ok c)
    (hr : r ∈ (postAuth env uid docId fp).db) :
    r ∈ env.db ∨ r.content = some c := by
  rw [postAuth] at h hr
  cases hdl : env.download fp with
  | none =>
    rw [hdl] at h
    simp at h
  | some f =>
    rw [hdl] at h hr
    simp only [] at h hr
    cases hext : extractContent env (lowerPath fp) f with
    | mk er np =>
      cases er with
      | fail reason =>
        rw [hext] at h
        simp at h
      | ok content =>
        rw [hext] at h hr
        simp only [] at h hr
        split at h
        · simp at h
        · rename_i herr
          split at h
          · simp at h
          · rename_i val hdata
            simp only [] at h
            have hcc : content = c := by simpa using h
            subst hcc
            rw [if_neg herr] at hr
            rw [hdata] at hr
            simp only [] at hr
            rcases mem_runSave_db hr with hmem | ⟨r0, hr0, heq⟩
            · exact Or.inl hmem
            · rcases saveApply_complete_content uid docId content r0 with hsame | hcont
              · rw [heq, hsame]
                exact Or.inl hr0
              · rw [heq]
                exact Or.inr hcont

theorem postAuth_coupling {env : Env} {uid docId fp : List Char} {r : DocRow}
    (hpre : ∀ r0 ∈ env.db, r0.content = none ∧ r0.extraction_status ≠ stComplete)
    (hr : r ∈ (postAuth env uid docId fp).db) :
    (r.extraction_status = stComplete ↔ r.content ≠ none) := by
  rw [postAuth] at hr
  cases hdl : env.download fp with
  | none =>
    rw [hdl] at hr
    simp only [] at hr
    exact runSave_coupling hpre (Or.inr rfl) hr
  | some f =>
    rw [hdl] at hr
    simp only [] at hr
    cases hext : extractContent env (lowerPath fp) f with
    | mk er np =>
      cases er with
      | fail reason =>
        rw [hext] at hr
        simp only [] at hr
        exact runSave_coupling hpre (Or.inr rfl) hr
      | ok content =>
        rw [hext] at hr
        simp only [] at hr
        split at hr
        · exact runSave_coupling hpre (Or.inl rfl) hr
        · split at hr
          · exact runSave_coupling hpre (Or.inl rfl) hr
          · exact runSave_coupling hpre (Or.inl rfl) hr

/-! ## Closed facts about the message constants -/

set_option maxHeartbeats 1600000 in
theorem matchPwd_msgEncrypted : matchPwd msgEncrypted = true := by decide

set_option maxHeartbeats 1600000 in
theorem msgEncrypted_take : msgEncrypted.take 500 = msgEncrypted := by decide

set_option maxHeartbeats 1600000 in
theorem msgCorrupt_take : msgCorrupt.take 500 = msgCorrupt := by decide

set_option maxHeartbeats 1600000 in
theorem msgDownloadFailed_take : msgDownloadFailed.take 500 = msgDownloadFailed := by
  decide

theorem msgEncrypted_ne_nil : msgEncrypted ≠ [] := by decide

theorem msgCorrupt_ne_nil : msgCorrupt ≠ [] := by decide

theorem msgDownloadFailed_ne_nil : msgDownloadFailed ≠ [] := by decide

/-! ## Claim theorems -/

/-- **C1.** For every extraction request for a `.pdf` file that pdf.js
refuses to open — reported password-protected/encrypted, or otherwise
unopenable — the pipeline marks the document row `failed` (in the
encrypted case with the diagnostic `Encrypted or password-protected PDF
not supported.`, which matches encrypted/password), parses no pages, and
the HTTP response has status code 422. -/
theorem encrypted_pdf_rejected {env : Env} {req : Request}
    {auth uid documentId filePathRaw msg : List Char} {f : FileData}
    (hm : req.method = Method.post)
    (he : env.envOk = true)
    (ha : req.authHeader = some auth)
    (hb : ("Bearer ".data).isPrefixOf auth = true)
    (hu : env.getUser (jsTrim (auth.drop 7)) = some uid)
    (hbody : req.body = some ⟨some documentId, some filePathRaw⟩)
    (hd : documentId ≠ []) (hp : filePathRaw ≠ [])
    (hdl : env.download (normalizePath filePathRaw) = some f)
    (hpdf : f.pdf = PdfParse.failOpen msg)
    (hsuf : endsWithA ".pdf".data (lowerPath (normalizePath filePathRaw)) = true)
    (hup : env.updateFails = false) :
    (serve env req).resp.status = 422 ∧
    (serve env req).resp.body =
      RBody.err (if matchPwd msg = true then msgEncrypted else msgCorrupt) ∧
    (serve env req).log.pagesParsed = 0 ∧
    (∀ r ∈ (serve env req).db, r.id = documentId → r.user_id = uid →
      r.extraction_status = stFailed ∧
      r.failure_reason =
        some (if matchPwd msg = true then msgEncrypted else msgCorrupt)) ∧
    matchPwd msgEncrypted = true := by
  have hserve := serve_post hm he ha hb hu hbody hd hp
  rw [hserve, postAuth_pdf_failopen hdl hpdf hsuf]
  refine ⟨rfl, rfl, rfl, ?_, matchPwd_msgEncrypted⟩
  intro r hr hid huser
  have hre : (if matchPwd msg = true then msgEncrypted else msgCorrupt) ≠ [] := by
    split
    · exact msgEncrypted_ne_nil
    · exact msgCorrupt_ne_nil
  have hrow := runSave_failed_rows hre hr hid huser hup
  refine ⟨hrow.1, ?_⟩
  rw [hrow.2]
  congr 1
  split
  · exact msgEncrypted_take
  · exact msgCorrupt_take

def envC1w : Env :=
  ⟨true, fun _ => some "bob".data,
    fun _ => some ⟨[], PdfParse.failOpen "No password given".data⟩,
    fun _ => none, false,
    [⟨"doc1".data, "bob".data, none, stPending, none⟩]⟩

def reqC1w : Request :=
  ⟨Method.post, some "Bearer t".data, some ⟨some "doc1".data, some "a.pdf".data⟩⟩

theorem encrypted_pdf_rejected_witness : (serve envC1w reqC1w).resp.status = 422 :=
  (@encrypted_pdf_rejected envC1w reqC1w "Bearer t".data "bob".data "doc1".data
    "a.pdf".data "No password given".data
    ⟨[], PdfParse.failOpen "No password given".data⟩
    rfl rfl rfl (by decide) rfl rfl (by decide) (by decide)
    rfl rfl (by decide) rfl).1

/-- **C3.** Every invocation that ends in a success outcome returns
content of length at most 50000, and the document rows it touched hold
exactly that content. -/
theorem success_content_bounded (env : Env) (req : Request) (c : List Char)
    (h : (serve env req).resp.body = RBody.ok c) :
    c.length ≤ maxOutputChars ∧
      ∀ r ∈ (serve env req).db, r ∈ env.db ∨ r.content = some c := by
  rcases serve_shape env req with ⟨uid, docId, fp, hs⟩ | ⟨hdb, hnotok⟩
  · rw [hs] at h ⊢
    exact ⟨ok_content_length (postAuth_ok h), fun r hr => postAuth_ok_rows h hr⟩
  · exact absurd h (hnotok c)

def envC3w : Env :=
  ⟨true, fun _ => some "u".data,
    fun _ => some ⟨"hi".data, PdfParse.failOpen []⟩,
    fun _ => none, false,
    [⟨"d".data, "u".data, none, stPending, none⟩]⟩

def reqC3w : Request :=
  ⟨Method.post, some "Bearer t".data, some ⟨some "d".data, some "n.txt".data⟩⟩

theorem success_content_bounded_witness : ("hi".data).length ≤ maxOutputChars :=
  (success_content_bounded envC3w reqC3w "hi".data (by decide)).1

/-- **C4.** Starting from rows in the documented pre-extraction state
(content null, status not yet `complete`), after any terminal pipeline
invocation every document row satisfies: extraction status is `complete`
if and only if the content field is non-null. -/
theorem status_content_coupling (env : Env) (req : Request)
    (hpre : ∀ r ∈ env.db, r.content = none ∧ r.extraction_status ≠ stComplete) :
    ∀ r ∈ (serve env req).db,
      (r.extraction_status = stComplete ↔ r.content ≠ none) := by
  intro r hr
  rcases serve_shape env req with ⟨uid, docId, fp, hs⟩ | ⟨hdb, _⟩
  · rw [hs] at hr
    exact postAuth_coupling hpre hr
  · rw [hdb] at hr
    obtain ⟨hc, hs2⟩ := hpre r hr
    exact ⟨fun hcomp => absurd hcomp hs2, fun hcn => absurd hc hcn⟩

def rowC4w : DocRow := ⟨"d".data, "u".data, some "hi".data, stComplete, none⟩

theorem status_content_coupling_witness :
    (rowC4w.extraction_status = stComplete ↔ rowC4w.content ≠ none) :=
  status_content_coupling envC3w reqC3w (by decide) rowC4w (by decide)

/-- **C5.** Extracting a plain-text file whose raw content is
`hello\x00world\n\n\n\nbye` yields sanitized content exactly
`helloworld\n\nbye` (NUL stripped, the run of four newlines collapsed to
two), persisted with status `complete` and returned with code 200. -/
theorem plain_text_scenario :
    serve
      ⟨true, fun _ => some "alice".data,
        fun _ => some ⟨"hello\x00world\n\n\n\nbye".data, PdfParse.failOpen []⟩,
        fun _ => none, false,
        [⟨"d1".data, "alice".data, none, stPending, none⟩]⟩
      ⟨Method.post, some "Bearer tok".data,
        some ⟨some "d1".data, some "notes.txt".data⟩⟩ =
    ⟨⟨200, RBody.ok "helloworld\n\nbye".data⟩,
      [⟨"d1".data, "alice".data, some "helloworld\n\nbye".data, stComplete, none⟩],
      ⟨["notes.txt".data], 0⟩⟩ := by
  decide

def rowC6 : DocRow := ⟨"d9".data, "alice".data, none, stPending, none⟩

def envC6 : Env :=
  ⟨true, fun _ => some "bob".data,
    fun _ => some ⟨"hi".data, PdfParse.failOpen []⟩,
    fun _ => none, false, [rowC6]⟩

def reqC6 : Request :=
  ⟨Method.post, some "Bearer tokB".data, some ⟨some "d9".data, some "f.txt".data⟩⟩

/-- **C6.** Calling extract as user `bob` on a document owned by `alice`:
the update (scoped by id and user id) matches zero rows and alice's row
is left unmodified — but the response is 500 `Failed to save extracted
content`, not the specified 404, because `.select("id").single()`
reports zero matched rows as an error before the zero-row check can run;
the `Document not found for this user` branch is unreachable. -/
theorem ownership_scoping_bug :
    (serve envC6 reqC6).resp = ⟨500, RBody.err msgSaveFailed⟩ ∧
    (serve envC6 reqC6).db = [rowC6] :=
  ⟨by decide, by decide⟩

/-- **C7.** When the blob download of the normalized path fails, the
pipeline persists status `failed` with the diagnostic
`Failed to download file` on the (id, user)-scoped row, responds with
the server-error code 502, and performs exactly one download attempt (no
automatic retry). -/
theorem download_failure_marks_failed {env : Env} {req : Request}
    {auth uid documentId filePathRaw : List Char}
    (hm : req.method = Method.post)
    (he : env.envOk = true)
    (ha : req.authHeader = some auth)
    (hb : ("Bearer ".data).isPrefixOf auth = true)
    (hu : env.getUser (jsTrim (auth.drop 7)) = some uid)
    (hbody : req.body = some ⟨some documentId, some filePathRaw⟩)
    (hd : documentId ≠ []) (hp : filePathRaw ≠ [])
    (hdl : env.download (normalizePath filePathRaw) = none)
    (hup : env.updateFails = false) :
    (serve env req).resp = ⟨502, RBody.err msgDownloadFailed⟩ ∧
    (serve env req).log.downloads = [normalizePath filePathRaw] ∧
    (∀ r ∈ (serve env req).db, r.id = documentId → r.user_id = uid →
      r.extraction_status = stFailed ∧
      r.failure_reason = some msgDownloadFailed) := by
  have hserve := serve_post hm he ha hb hu hbody hd hp
  rw [hserve, postAuth_download_fail hdl]
  refine ⟨rfl, rfl, ?_⟩
  intro r hr hid huser
  have hrow := runSave_failed_rows msgDownloadFailed_ne_nil hr hid huser hup
  exact ⟨hrow.1, by rw [hrow.2, msgDownloadFailed_take]⟩

def envC7w : Env :=
  ⟨true, fun _ => some "u".data, fun _ => none, fun _ => none, false,
    [⟨"d".data, "u".data, none, stPending, none⟩]⟩

def reqC7w : Request :=
  ⟨Method.post, some "Bearer t".data, some ⟨some "d".data, some "/x.txt".data⟩⟩

theorem download_failure_marks_failed_witness :
    (serve envC7w reqC7w).resp = ⟨502, RBody.err msgDownloadFailed⟩ :=
  (@download_failure_marks_failed envC7w reqC7w "Bearer t".data "u".data
    "d".data "/x.txt".data
    rfl rfl rfl (by decide) rfl rfl (by decide) (by decide) rfl rfl).1

/-- **C8.** A PDF whose reported page count exceeds the hard ceiling of
1000 pages fails fast: no page is scanned, the row is marked `failed`
with a reason citing the actual page count and the limit
(`PDF has N pages (limit 1000).`), and the response code is 422. -/
theorem oversized_pdf_rejected {env : Env} {req : Request}
    {auth uid documentId filePathRaw : List Char} {f : FileData}
    {pages : List PdfPage}
    (hm : req.method = Method.post)
    (he : env.envOk = true)
    (ha : req.authHeader = some auth)
    (hb : ("Bearer ".data).isPrefixOf auth = true)
    (hu : env.getUser (jsTrim (auth.drop 7)) = some uid)
    (hbody : req.body = some ⟨some documentId, some filePathRaw⟩)
    (hd : documentId ≠ []) (hp : filePathRaw ≠ [])
    (hdl : env.download (normalizePath filePathRaw) = some f)
    (hpdf : f.pdf = PdfParse.doc pages)
    (hsuf : endsWithA ".pdf".data (lowerPath (normalizePath filePathRaw)) = true)
    (hbig : maxPdfPages < pages.length)
    (hup : env.updateFails = false) :
    (serve env req).resp = ⟨422, RBody.err (pageLimitMsg pages.length)⟩ ∧
    (serve env req).log.pagesParsed = 0 ∧
    (∀ r ∈ (serve env req).db, r.id = documentId → r.user_id = uid →
      r.extraction_status = stFailed ∧
      r.failure_reason = some ((pageLimitMsg pages.length).take 500)) := by
  have hserve := serve_post hm he ha hb hu hbody hd hp
  rw [hserve, postAuth_pdf_toobig hdl hpdf hsuf hbig]
  refine ⟨rfl, rfl, ?_⟩
  intro r hr hid huser
  have hne : pageLimitMsg pages.length ≠ [] := by
    intro hx
    rw [pageLimitMsg] at hx
    simp only [List.append_eq_nil] at hx
    exact absurd hx.1.1.1.1 (by decide)
  exact runSave_failed_rows hne hr hid huser hup

def pagesC8w : List PdfPage := List.replicate 1001 ⟨[]⟩

def envC8w : Env :=
  ⟨true, fun _ => some "u".data,
    fun _ => some ⟨[], PdfParse.doc pagesC8w⟩,
    fun _ => none, false,
    [⟨"d".data, "u".data, none, stPending, none⟩]⟩

def reqC8w : Request :=
  ⟨Method.post, some "Bearer t".data, some ⟨some "d".data, some "b.pdf".data⟩⟩

theorem oversized_pdf_rejected_witness :
    (serve envC8w reqC8w).log.pagesParsed = 0 :=
  (@oversized_pdf_rejected envC8w reqC8w "Bearer t".data "u".data
    "d".data "b.pdf".data ⟨[], PdfParse.doc pagesC8w⟩ pagesC8w
    rfl rfl rfl (by decide) rfl rfl (by decide) (by decide)
    rfl rfl (by decide) (by rw [pagesC8w, List.length_replicate]; decide) rfl).2.1

def envC9x : Env :=
  ⟨true, fun _ => some "u".data,
    fun _ => some ⟨"a\tb".data, PdfParse.failOpen []⟩,
    fun _ => none, false,
    [⟨"d".data, "u".data, none, stPending, none⟩]⟩

def reqC9x : Request :=
  ⟨Method.post, some "Bearer t".data, some ⟨some "d".data, some "c.txt".data⟩⟩

/-- **C9 (counterexample).** The claim that terminal output contains no
C0/DEL byte is false as stated: a `.txt` extraction succeeds with
content `a\tb`, which contains the C0 control byte 0x09 (tab); `clean`
deliberately leaves tab, LF and CR in place. -/
theorem output_keeps_tab_counterexample :
    (serve envC9x reqC9x).resp.body = RBody.ok ['a', '\t', 'b'] ∧
    '\t' ∈ ['a', '\t', 'b'] ∧ '\t'.toNat ≤ 0x1F :=
  ⟨by decide, by decide, by decide⟩

/-- **C9 (amended).** For every terminal outcome with a success body, the
output content contains no NUL and no C0/DEL control byte other than the
whitespace controls tab (0x09), LF (0x0A) and CR (0x0D), i.e. no byte of
the stripped class `[\x00-\x08\x0B\x0C\x0E-\x1F\x7F]`. -/
theorem success_content_no_bad_ctrl (env : Env) (req : Request) (c : List Char)
    (h : (serve env req).resp.body = RBody.ok c) :
    noBadCtrl c = true := by
  rcases serve_shape env req with ⟨uid, docId, fp, hs⟩ | ⟨_, hnotok⟩
  · rw [hs] at h
    exact ok_content_noBadCtrl (postAuth_ok h)
  · exact absurd h (hnotok c)

theorem success_content_no_bad_ctrl_witness : noBadCtrl ['a', '\t', 'b'] = true :=
  success_content_no_bad_ctrl envC9x reqC9x ['a', '\t', 'b'] (by decide)

/-- **C10.** The path normalization `replace(/^\/+/, "")` removes exactly
the maximal leading run of slashes and nothing else: every input equals
the removed run of slashes followed by the normalized output (so `..`
segments and interior separators are preserved unchanged), and the
output never starts with a slash. -/
theorem normalize_path_exact :
    (∀ l : List Char,
      l = List.replicate ((l.takeWhile (fun c => c == '/')).length) '/' ++
        normalizePath l) ∧
    (∀ l : List Char, ∀ c : Char,
      (normalizePath l).head? = some c → c ≠ '/') := by
  constructor
  · intro l
    have h1 : l.takeWhile (fun c => c == '/') ++ l.dropWhile (fun c => c == '/') = l :=
      List.takeWhile_append_dropWhile _ _
    have h2 : l.takeWhile (fun c => c == '/') =
        List.replicate ((l.takeWhile (fun c => c == '/')).length) '/' := by
      apply List.eq_replicate_of_mem
      intro b hb
      have := List.mem_takeWhile_imp hb
      simpa using this
    rw [normalizePath]
    conv_rhs => rw [← h2]
    exact h1.symm
  · intro l c hc
    have := head?_dropWhile_not hc
    simpa using this

theorem normalize_path_exact_witness :
    ("//a/../b".data =
      List.replicate (("//a/../b".data.takeWhile (fun c => c == '/')).length) '/' ++
        normalizePath "//a/../b".data) ∧ 'a' ≠ '/' :=
  ⟨normalize_path_exact.1 "//a/../b".data,
    normalize_path_exact.2 "//a/../b".data 'a' (by decide)⟩

end FileSage
